import Mathlib

/-!
Shallow embedding of the go-storage repository (src/storage.go): an
in-memory key/value store whose mutations are appended to a transaction
log and replayed at startup.  Pure Go functions become Lean functions;
the writer goroutine, the replay goroutine and the channels become
explicit list-processing functions; file I/O becomes lists of lines.
-/

namespace GoStorage

/-- EventType constants from src/storage.go: the iota block reserves 0,
so EventDelete = 1 and EventPut = 2.  The type is modelled as Nat because
the replay parser scans an arbitrary decimal byte into this field without
validating membership in the enumeration. -/
def EventDelete : Nat := 1

/-- EventPut = 2 (see EventDelete). -/
def EventPut : Nat := 2

/-- The Event record (Sequence uint64, EventType byte, Key, Value). -/
structure Event where
  sequence : Nat
  eventType : Nat
  key : String
  value : String
deriving Repr, DecidableEq

/-- Whitespace as Go's fmt scanning functions treat it inside a line. -/
def isSpace (c : Char) : Bool :=
  c = ' ' || c = '\t' || c = '\n' || c = '\r' || c = '\x0b' || c = '\x0c'

/-- Drop leading whitespace; fmt's verbs skip space before scanning, and a
tab in a Scanf format likewise matches a (possibly empty) whitespace run. -/
def skipSpaces : List Char → List Char
  | [] => []
  | c :: cs => if isSpace c then skipSpaces cs else c :: cs

/-- Split off the maximal leading run of decimal digits. -/
def takeDigits : List Char → List Char × List Char
  | [] => ([], [])
  | c :: cs =>
    if c.isDigit then
      let p := takeDigits cs
      (c :: p.1, p.2)
    else ([], c :: cs)

/-- Split off the maximal leading run of non-whitespace characters. -/
def takeToken : List Char → List Char × List Char
  | [] => ([], [])
  | c :: cs =>
    if isSpace c then ([], c :: cs)
    else
      let p := takeToken cs
      (c :: p.1, p.2)

/-- Decimal value of a digit string. -/
def digitsToNat (ds : List Char) : Nat :=
  ds.foldl (fun n c => 10 * n + (c.toNat - '0'.toNat)) 0

/-- One %d directive of fmt.Sscanf: skip whitespace, then require at least
one decimal digit; fails at end of input or on a non-digit. -/
def scanNat (s : List Char) : Option (Nat × List Char) :=
  let s := skipSpaces s
  let p := takeDigits s
  if p.1.isEmpty then none else some (digitsToNat p.1, p.2)

/-- One %s directive of fmt.Sscanf: skip whitespace, then require at least
one non-whitespace character; the token ends at the next whitespace. -/
def scanToken (s : List Char) : Option (String × List Char) :=
  let s := skipSpaces s
  let p := takeToken s
  if p.1.isEmpty then none else some (String.mk p.1, p.2)

/-- fmt.Sscanf(line, "%d\t%d\t%s\t%s", &e.Sequence, &e.EventType, &e.Key,
&e.Value) from FileTransactionLogger.ReadEvents.  The literal tabs in the
format match any (possibly empty) whitespace run, which the verbs skip
anyway.  Scanning %d into the uint64 Sequence fails beyond 2^64 - 1 and
into the byte-sized EventType fails beyond 255 (value out of range).
Trailing unconsumed input is not an error for Sscanf. -/
def parseLine (line : String) : Option Event := do
  let s0 := line.toList
  let (seq, s1) ← scanNat s0
  if seq ≥ 2 ^ 64 then none else
  let (et, s2) ← scanNat s1
  if et ≥ 256 then none else
  let (key, s3) ← scanToken s2
  let (value, _) ← scanToken s3
  pure ⟨seq, et, key, value⟩

/-- The outcome of one ReadEvents pass: the events sent on the event
channel in order, the single error (the error channel has capacity one and
the goroutine returns right after sending), and the final value of
l.lastSequence. -/
structure ReadResult where
  events : List Event
  error : Option String
  lastSequence : Nat
deriving Repr, DecidableEq

/-- Error tag for fmt.Errorf("input parse error: %w", err); the wrapped
scanner error text is not modelled. -/
def parseErrorMsg : String := "input parse error"

/-- Error tag for fmt.Errorf("transaction numbers out of sequence"). -/
def outOfSequenceMsg : String := "transaction numbers out of sequence"

/-- FileTransactionLogger.ReadEvents, with the log file already split into
lines by bufio.Scanner.  For each line in order: parse it (failure sends an
input parse error and returns), check the integrity invariant
l.lastSequence >= e.Sequence (violation sends an out-of-sequence error and
returns), otherwise record the sequence and send the event.  A Scanner
read error at the end is an I/O effect not modelled here. -/
def readEvents (lastSequence : Nat) : List String → ReadResult
  | [] => ⟨[], none, lastSequence⟩
  | line :: rest =>
    match parseLine line with
    | none => ⟨[], some parseErrorMsg, lastSequence⟩
    | some e =>
      if lastSequence ≥ e.sequence then
        ⟨[], some outOfSequenceMsg, lastSequence⟩
      else
        let r := readEvents e.sequence rest
        ⟨e :: r.events, r.error, r.lastSequence⟩

/-! ## The key/value store -/

/-- The guarded map store.data, modelled extensionally. -/
def Store := String → Option String

/-- The store starts empty: make(map[string]string). -/
def emptyStore : Store := fun _ => none

/-- var ErrorNoSuchKey = errors.New("No such key"). -/
def ErrorNoSuchKey : String := "No such key"

/-- Get(key): returns ("", ErrorNoSuchKey) when the key is absent,
otherwise the stored value with a nil error. -/
def Get (s : Store) (key : String) : String × Option String :=
  match s key with
  | some v => (v, none)
  | none => ("", some ErrorNoSuchKey)

/-- Put(key, value): store.data[key] = value; always returns nil. -/
def Put (s : Store) (key value : String) : Store × Option String :=
  (fun k => if k = key then some value else s k, none)

/-- Delete(key): delete(store.data, key); always returns nil. -/
def Delete (s : Store) (key : String) : Store × Option String :=
  (fun k => if k = key then none else s k, none)

/-! ## The log writer -/

/-- fmt.Fprintf(l.file, "%d\t%d\t%s\t%s\n", l.lastSequence, e.EventType,
e.Key, e.Value): the one line appended for an event, without the trailing
newline (the log file is modelled as its list of lines). -/
def formatEvent (seq : Nat) (e : Event) : String :=
  toString seq ++ "\t" ++ toString e.eventType ++ "\t" ++ e.key ++ "\t" ++ e.value

/-- WritePut sends Event{EventType: EventPut, Key: key, Value: value} on
the events channel; Sequence is the zero value, the writer assigns it. -/
def WritePut (key value : String) : Event :=
  ⟨0, EventPut, key, value⟩

/-- WriteDelete sends Event{EventType: EventDelete, Key: key}; Value is
the zero value, the empty string. -/
def WriteDelete (key : String) : Event :=
  ⟨0, EventDelete, key, ""⟩

/-- The goroutine of FileTransactionLogger.Run with every Fprintf
succeeding: for each queued event in order, increment the uint64
l.lastSequence (wrapping at 2^64) and append the formatted line.  Returns
the final lastSequence and the lines appended, in order. -/
def runWriter (lastSequence : Nat) : List Event → Nat × List String
  | [] => (lastSequence, [])
  | e :: es =>
    let seq := (lastSequence + 1) % 2 ^ 64
    let r := runWriter seq es
    (r.1, formatEvent seq e :: r.2)

/-- State of a FileTransactionLogger writer after its drain goroutine
stops: final lastSequence, the lines successfully appended, and the
content of the capacity-one errors channel. -/
structure WriterState where
  lastSequence : Nat
  lines : List String
  error : Option String
deriving Repr, DecidableEq

/-- The goroutine of FileTransactionLogger.Run with fallible writes:
writeResult i is the error of the i-th Fprintf call (none = success).  On
the first failure the goroutine sends the error on the errors channel and
returns, so no later event is written and nothing is retried; the wrapping
uint64 lastSequence increment for the failed event has already happened. -/
def runDrain (writeResult : Nat → Option String) (i : Nat) (lastSequence : Nat) :
    List Event → WriterState
  | [] => ⟨lastSequence, [], none⟩
  | e :: es =>
    match writeResult i with
    | some msg => ⟨(lastSequence + 1) % 2 ^ 64, [], some msg⟩
    | none =>
      let seq := (lastSequence + 1) % 2 ^ 64
      let r := runDrain writeResult (i + 1) seq es
      ⟨r.lastSequence, formatEvent seq e :: r.lines, r.error⟩

/-- FileTransactionLogger.Err exposes the errors channel. -/
def Err (st : WriterState) : Option String := st.error

/-! ## The bounded event channel -/

/-- make(chan Event, 16) in FileTransactionLogger.Run. -/
def eventChannelCapacity : Nat := 16

/-- The events channel viewed as its buffer of in-flight events. -/
structure EventQueue where
  buffered : List Event
deriving Repr, DecidableEq

/-- One send l.events <- e: it enqueues at the back when the buffer is
below capacity; a send on a full buffer blocks the caller, modelled as the
step being disabled (none) — the event is neither dropped nor reordered. -/
def submit (q : EventQueue) (e : Event) : Option EventQueue :=
  if q.buffered.length < eventChannelCapacity then some ⟨q.buffered ++ [e]⟩ else none

/-- Sequential sends of a list of events. -/
def submitAll (q : EventQueue) : List Event → Option EventQueue
  | [] => some q
  | e :: es =>
    match submit q e with
    | some q1 => submitAll q1 es
    | none => none

/-! ## Startup: replay coordinator and main -/

/-- The Run of a fresh FileTransactionLogger starts numbering from the
struct zero value lastSequence = 0 (NewFileTransactionLogger only sets the
file field). -/
structure FileTransactionLogger where
  lastSequence : Nat

/-- NewFileTransactionLogger with the file successfully opened: the
logger's lastSequence is the zero value 0. -/
def NewFileTransactionLogger : FileTransactionLogger := ⟨0⟩

/-- The body of the select loop in initializeTransactionLog, applied to
one replayed event: EventDelete calls Delete, EventPut calls Put, any
other kind falls through the switch and leaves the store unchanged.  Put
and Delete always return nil, so a store-apply error never arises. -/
def applyEvent (s : Store) (e : Event) : Store :=
  if e.eventType = EventDelete then (Delete s e.key).1
  else if e.eventType = EventPut then (Put s e.key e.value).1
  else s

/-- initializeTransactionLog on an already-opened log file: replays the
log with ReadEvents from lastSequence 0, applies each delivered event to
the store in arrival order, and returns the store together with the error
received on the error channel (none on clean exhaustion).  The select over
the two channels is modelled as events first, then the pending error. -/
def initializeTransactionLog (s : Store) (lines : List String) :
    Store × Option String :=
  let r := readEvents NewFileTransactionLogger.lastSequence lines
  (r.events.foldl applyEvent s, r.error)

/-- Observable outcome of process startup. -/
structure ProcessState where
  store : Store
  replayError : Option String
  serving : Bool

/-- main: it calls initializeTransactionLog() discarding the returned
error (the call is a bare statement), then unconditionally registers the
routes and calls http.ListenAndServe, so serving is always true. -/
def mainStartup (lines : List String) : ProcessState :=
  let r := initializeTransactionLog emptyStore lines
  ⟨r.1, r.2, true⟩

/-! ## Spec-side reference definitions -/

/-- Store operations as submitted by callers, for relating a whole
operation sequence to the final store. -/
inductive Op where
  | put (key value : String)
  | del (key : String)
deriving Repr, DecidableEq

/-- Apply one operation to the store. -/
def applyOp (s : Store) : Op → Store
  | .put k v => (Put s k v).1
  | .del k => (Delete s k).1

/-- Apply a sequence of operations in order. -/
def applyOps (s : Store) (ops : List Op) : Store :=
  ops.foldl applyOp s

/-- Spec-side reference for the last-mutation-wins contract: the last
operation in ops touching key, as some (some v) for a Put of v, some none
for a Delete, and none when no operation touches key.  Later operations
(the tail of the list) take precedence. -/
def lastMutation (key : String) : List Op → Option (Option String)
  | [] => none
  | op :: rest =>
    match lastMutation key rest with
    | some r => some r
    | none =>
      match op with
      | .put k v => if k = key then some (some v) else none
      | .del k => if k = key then some none else none

/-- Sequence numbers the writer assigns to n events drained after
lastSequence s0, with the uint64 wrap: s0 + 1, s0 + 2, ... modulo 2^64. -/
def seqRange (s0 : Nat) : Nat → List Nat
  | 0 => []
  | n + 1 => ((s0 + 1) % 2 ^ 64) :: seqRange ((s0 + 1) % 2 ^ 64) n

/-- The writer's lastSequence after draining n events from s0, with the
uint64 wrap. -/
def seqAfter (s0 : Nat) : Nat → Nat
  | 0 => s0
  | n + 1 => seqAfter ((s0 + 1) % 2 ^ 64) n

/-! ## Helper lemmas -/

theorem seqRange_length (n s0 : Nat) : (seqRange s0 n).length = n := by
  induction n generalizing s0 with
  | zero => rfl
  | succ n ih => simp [seqRange, ih]

/-- While no wraparound occurs, the assigned sequences are strictly
increasing above the starting lastSequence. -/
theorem seqRange_chain (n s0 : Nat) (h : s0 + n < 2 ^ 64) :
    List.Chain' (fun a b => a < b) (s0 :: seqRange s0 n) := by
  induction n generalizing s0 with
  | zero => simp [seqRange]
  | succ n ih =>
    rw [seqRange, Nat.mod_eq_of_lt (by omega)]
    exact List.chain'_cons.mpr ⟨by omega, ih (s0 + 1) (by omega)⟩

/-- The sequences of the events delivered by one ReadEvents pass are
strictly increasing and all strictly above the starting lastSequence. -/
theorem readEvents_chain (lines : List String) (s0 : Nat) :
    List.Chain' (fun a b => a < b)
      (s0 :: ((readEvents s0 lines).events.map Event.sequence)) := by
  induction lines generalizing s0 with
  | nil => simp [readEvents]
  | cons line rest ih =>
    simp only [readEvents]
    split
    · simp
    · rename_i e hp
      split
      · simp
      · rename_i hge
        simp only [List.map_cons]
        exact List.chain'_cons.mpr ⟨by omega, ih e.sequence⟩

/-- After a successful ReadEvents pass the final lastSequence bounds the
starting value and every delivered sequence from above. -/
theorem readEvents_ok (lines : List String) (s0 S : Nat) (evs : List Event)
    (h : readEvents s0 lines = ⟨evs, none, S⟩) :
    s0 ≤ S ∧ ∀ e ∈ evs, e.sequence ≤ S := by
  induction lines generalizing s0 evs with
  | nil =>
    simp only [readEvents, ReadResult.mk.injEq] at h
    obtain ⟨h1, _, h3⟩ := h
    subst h1
    subst h3
    exact ⟨Nat.le_refl _, by simp⟩
  | cons line rest ih =>
    simp only [readEvents] at h
    split at h
    · exact absurd h (by simp)
    · rename_i e hp
      split at h
      · exact absurd h (by simp)
      · rename_i hge
        rcases hr : readEvents e.sequence rest with ⟨a, b, c⟩
        rw [hr] at h
        simp only [ReadResult.mk.injEq] at h
        obtain ⟨hevs, herr, hlast⟩ := h
        subst herr
        subst hlast
        have hih := ih e.sequence a hr
        subst hevs
        refine ⟨by omega, ?_⟩
        intro x hx
        rcases List.mem_cons.mp hx with hx | hx
        · subst hx; exact hih.1
        · exact hih.2 x hx

/-- The writer's lines are exactly the submitted events formatted with the
consecutive (wrapping) sequence numbers after s0, in submission order. -/
theorem runWriter_eq (es : List Event) (s0 : Nat) :
    runWriter s0 es =
      (seqAfter s0 es.length,
       List.zipWith formatEvent (seqRange s0 es.length) es) := by
  induction es generalizing s0 with
  | nil => simp [runWriter, seqRange, seqAfter]
  | cons e es ih =>
    simp only [runWriter, ih, List.length_cons, seqRange, seqAfter,
      List.zipWith_cons_cons]

/-- A failed drain, generalized over the index offset: the error reaches
the error slot and only the events before the failure are written. -/
theorem runDrain_fail (es : List Event) (w : Nat → Option String)
    (a i s0 : Nat) (msg : String)
    (hok : ∀ j, j < i → w (a + j) = none) (hfail : w (a + i) = some msg)
    (hlen : i < es.length) :
    (runDrain w a s0 es).error = some msg
    ∧ (runDrain w a s0 es).lines = (runWriter s0 (es.take i)).2 := by
  induction es generalizing a i s0 with
  | nil => simp at hlen
  | cons e es ih =>
    cases i with
    | zero =>
      have hfail0 : w a = some msg := hfail
      rw [runDrain, hfail0]
      exact ⟨rfl, rfl⟩
    | succ i =>
      rw [runDrain]
      have h0 : w a = none := by
        have h := hok 0 (by omega)
        simpa using h
      rw [h0]
      have hok1 : ∀ j, j < i → w (a + 1 + j) = none := by
        intro j hj
        have h := hok (j + 1) (by omega)
        have he : a + (j + 1) = a + 1 + j := by omega
        rw [he] at h
        exact h
      have hfail1 : w (a + 1 + i) = some msg := by
        have he : a + (i + 1) = a + 1 + i := by omega
        rw [he] at hfail
        exact hfail
      have hlen1 : i < es.length := by
        simp only [List.length_cons] at hlen
        omega
      have hih := ih (a + 1) i ((s0 + 1) % 2 ^ 64) hok1 hfail1 hlen1
      simp only [List.take_succ_cons, runWriter]
      exact ⟨hih.1, by rw [hih.2]⟩

/-- submitAll succeeds whenever the buffer has room for all events, and
the resulting buffer is the original followed by the events in order. -/
theorem submitAll_ok (es : List Event) (q : EventQueue)
    (h : q.buffered.length + es.length ≤ eventChannelCapacity) :
    submitAll q es = some ⟨q.buffered ++ es⟩ := by
  induction es generalizing q with
  | nil => simp [submitAll]
  | cons e es ih =>
    rw [submitAll, submit, if_pos ?_]
    · show submitAll ⟨q.buffered ++ [e]⟩ es = some ⟨q.buffered ++ e :: es⟩
      rw [ih ⟨q.buffered ++ [e]⟩ ?_]
      · simp
      · simp only [List.length_append, List.length_cons, List.length_nil] at h ⊢
        omega
    · simp only [List.length_cons] at h
      omega

/-- Whenever submitAll succeeds, the final buffer is the original buffer
followed by the submitted events in submission order. -/
theorem submitAll_some (es : List Event) (q q1 : EventQueue)
    (h : submitAll q es = some q1) : q1 = ⟨q.buffered ++ es⟩ := by
  induction es generalizing q with
  | nil =>
    simp only [submitAll, Option.some.injEq] at h
    subst h
    simp
  | cons e es ih =>
    rw [submitAll] at h
    rcases hs : submit q e with _ | q2
    · rw [hs] at h; exact absurd h (by simp)
    · rw [hs] at h
      have hq2 : q2 = ⟨q.buffered ++ [e]⟩ := by
        rw [submit] at hs
        by_cases hlt : q.buffered.length < eventChannelCapacity
        · rw [if_pos hlt] at hs
          exact (Option.some_inj.mp hs).symm
        · rw [if_neg hlt] at hs
          exact absurd hs (by simp)
      have := ih q2 h
      subst hq2
      simp only [this]
      simp

/-- Relating applyOps to the spec-side last-mutation scan. -/
theorem applyOps_lookup (ops : List Op) (s : Store) (key : String) :
    applyOps s ops key =
      (match lastMutation key ops with
       | some r => r
       | none => s key) := by
  induction ops generalizing s with
  | nil => rfl
  | cons op rest ih =>
    have hstep : applyOps s (op :: rest) = applyOps (applyOp s op) rest := rfl
    rw [hstep, ih]
    cases hm : lastMutation key rest with
    | some r => simp [lastMutation, hm]
    | none =>
      cases op with
      | put k v =>
        simp only [lastMutation, hm, applyOp, Put]
        by_cases hk : k = key
        · subst hk; simp
        · rw [if_neg hk, if_neg (fun h => hk h.symm)]
      | del k =>
        simp only [lastMutation, hm, applyOp, Delete]
        by_cases hk : k = key
        · subst hk; simp
        · rw [if_neg hk, if_neg (fun h => hk h.symm)]

/-! ## Claims -/

/-- C1 (code bug): the writer/replayer round trip fails on the code for a
Delete event.  WriteDelete submits a Delete with the zero-value empty
Value, the writer appends the line 1 tab 1 tab a tab (empty last field),
and ReadEvents' Sscanf "%d\t%d\t%s\t%s" errors on the empty final %s
field, so replaying the writer's own output yields zero events and an
input parse error instead of the submitted event. -/
theorem c1_delete_event_breaks_replay :
    runWriter NewFileTransactionLogger.lastSequence [WriteDelete "a"] =
      (1, ["1\t1\ta\t"])
    ∧ readEvents NewFileTransactionLogger.lastSequence ["1\t1\ta\t"] =
      ⟨[], some parseErrorMsg, 0⟩ := by
  constructor
  · rfl
  · rfl

/-- C3 (code bug): on a log whose replay fails the integrity check,
initializeTransactionLog does return the out-of-sequence error, but main
discards the call's return value and unconditionally proceeds to
http.ListenAndServe, so the process begins serving requests despite the
failed startup replay. -/
theorem c3_main_serves_despite_replay_error :
    (mainStartup ["1\t2\ta\tx", "1\t2\tb\ty"]).replayError = some outOfSequenceMsg
    ∧ (mainStartup ["1\t2\ta\tx", "1\t2\tb\ty"]).serving = true := by
  constructor
  · rfl
  · rfl

/-- C5 counterexample: the line 1 tab 2 tab "a b" is missing its fourth
tab-separated field, yet replay delivers an event parsed from it (key "a",
value "b") with no error, because Sscanf's %s stops at any whitespace and
the literal tab in the format matches the space. -/
theorem c5_missing_field_line_accepted :
    parseLine "1\t2\ta b" = some ⟨1, 2, "a", "b"⟩
    ∧ readEvents 0 ["1\t2\ta b"] = ⟨[⟨1, 2, "a", "b"⟩], none, 1⟩ := by
  constructor
  · rfl
  · rfl

/-- C5 amended: a line on which Sscanf "%d\t%d\t%s\t%s" fails — in
particular one with fewer than four whitespace-separated tokens, or whose
sequence field does not start with a digit — makes replay send exactly one
input parse error at that line and stop, delivering no event from that
line or any later line; the events and lastSequence of the preceding
well-formed stretch are unaffected. -/
theorem c5_unparseable_line_halts_replay (s0 S : Nat) (pre : List String)
    (bad : String) (post : List String) (evs : List Event)
    (hpre : readEvents s0 pre = ⟨evs, none, S⟩) (hbad : parseLine bad = none) :
    readEvents s0 (pre ++ bad :: post) = ⟨evs, some parseErrorMsg, S⟩
    ∧ parseLine "7\t2\tk" = none
    ∧ parseLine "x\t2\tk\tv" = none := by
  refine ⟨?_, rfl, rfl⟩
  induction pre generalizing s0 evs with
  | nil =>
    simp only [readEvents, ReadResult.mk.injEq] at hpre
    obtain ⟨h1, _, h3⟩ := hpre
    subst h1
    subst h3
    simp only [List.nil_append, readEvents, hbad]
  | cons line rest ih =>
    simp only [readEvents] at hpre
    split at hpre
    · exact absurd hpre (by simp)
    · rename_i e hp
      split at hpre
      · exact absurd hpre (by simp)
      · rename_i hge
        rcases hr : readEvents e.sequence rest with ⟨a, b, c⟩
        rw [hr] at hpre
        simp only [ReadResult.mk.injEq] at hpre
        obtain ⟨hevs, herr, hlast⟩ := hpre
        subst herr
        subst hlast
        subst hevs
        have hih := ih e.sequence a hr
        simp only [List.cons_append, readEvents, hp, if_neg hge, List.append_eq, hih]

/-- C7: after any sequence of Put and Delete operations on the empty
store, Get returns exactly the value of the last Put to that key not
followed by a later Delete of it, and the NoSuchKey error when the key was
never Put or its last mutation was a Delete. -/
theorem c7_get_reflects_last_mutation (ops : List Op) (key : String) :
    Get (applyOps emptyStore ops) key =
      (match lastMutation key ops with
       | some (some v) => (v, none)
       | some none => ("", some ErrorNoSuchKey)
       | none => ("", some ErrorNoSuchKey)) := by
  have h := applyOps_lookup ops emptyStore key
  cases hm : lastMutation key ops with
  | none =>
    rw [hm] at h
    simp only [Get, h, emptyStore]
  | some r =>
    rw [hm] at h
    cases r with
    | none => simp only [Get, h]
    | some v => simp only [Get, h]

/-- C8: Delete returns a nil error on every store and key, and on an
absent key it leaves the store unchanged, so deleting an absent key twice
in a row errors neither time and is a no-op both times. -/
theorem c8_delete_idempotent_on_absent (s : Store) (key : String) :
    (Delete s key).2 = none
    ∧ (s key = none →
        Delete s key = (s, none) ∧ Delete (Delete s key).1 key = (s, none)) := by
  refine ⟨rfl, fun h => ?_⟩
  have hs : (fun k => if k = key then none else s k) = s := by
    funext k
    by_cases hk : k = key
    · subst hk
      simp [h]
    · simp [hk]
  have h1 : Delete s key = (s, none) := by
    simp only [Delete]
    rw [hs]
  refine ⟨h1, ?_⟩
  have h2 : (Delete s key).1 = s := congrArg Prod.fst h1
  rw [h2]
  exact h1

/-- C8 witness: both deletes of the absent key "a" on the empty store
return nil and leave the store empty. -/
theorem c8_delete_idempotent_on_absent_witness :
    (Delete emptyStore "a").2 = none
    ∧ (Delete emptyStore "a" = (emptyStore, none)
       ∧ Delete (Delete emptyStore "a").1 "a" = (emptyStore, none)) :=
  ⟨(c8_delete_idempotent_on_absent emptyStore "a").1,
   (c8_delete_idempotent_on_absent emptyStore "a").2 rfl⟩

/-- C5 witness: after one good line, the three-token line 2 tab 2 tab c
stops replay with a single parse error, ignoring the later good line. -/
theorem c5_unparseable_line_halts_replay_witness :
    readEvents 0 ["1\t2\ta\tb"] = ⟨[⟨1, 2, "a", "b"⟩], none, 1⟩
    ∧ parseLine "2\t2\tc" = none
    ∧ (readEvents 0 (["1\t2\ta\tb"] ++ "2\t2\tc" :: ["3\t2\td\te"]) =
         ⟨[⟨1, 2, "a", "b"⟩], some parseErrorMsg, 1⟩
       ∧ parseLine "7\t2\tk" = none
       ∧ parseLine "x\t2\tk\tv" = none) :=
  ⟨rfl, rfl,
   c5_unparseable_line_halts_replay 0 1 ["1\t2\ta\tb"] "2\t2\tc" ["3\t2\td\te"]
     [⟨1, 2, "a", "b"⟩] rfl rfl⟩

/-- C2: if the first two log lines parse and the second line's sequence is
not strictly above the first's, replay halts with exactly one error (the
out-of-sequence error) and delivers at most one event — the first line's
event when it itself passes the check against the starting lastSequence,
nothing otherwise — ignoring all later lines; and in general the delivered
sequences are strictly increasing above the running maximum. -/
theorem c2_nonincreasing_second_line_halts (s0 : Nat) (l1 l2 : String)
    (rest : List String) (e1 e2 : Event)
    (h1 : parseLine l1 = some e1) (h2 : parseLine l2 = some e2)
    (hle : e2.sequence ≤ e1.sequence) :
    ((readEvents s0 (l1 :: l2 :: rest)).error = some outOfSequenceMsg
      ∧ (readEvents s0 (l1 :: l2 :: rest)).events =
          (if s0 < e1.sequence then [e1] else []))
    ∧ ∀ (s : Nat) (lines : List String),
        List.Chain' (fun a b => a < b)
          (s :: ((readEvents s lines).events.map Event.sequence)) := by
  refine ⟨?_, fun s lines => readEvents_chain lines s⟩
  by_cases hge : s0 ≥ e1.sequence
  · constructor
    · simp only [readEvents, h1, if_pos hge]
    · simp only [readEvents, h1, if_pos hge]
      rw [if_neg (by omega : ¬ s0 < e1.sequence)]
  · have hge2 : e1.sequence ≥ e2.sequence := hle
    constructor
    · simp only [readEvents, h1, if_neg hge, h2, if_pos hge2]
    · simp only [readEvents, h1, if_neg hge, h2, if_pos hge2]
      rw [if_pos (by omega : s0 < e1.sequence)]

/-- C2 witness: a fresh replayer on the log 5, 3, 9 delivers the event of
the first line, then the out-of-sequence error, and never reaches the
third line. -/
theorem c2_nonincreasing_second_line_halts_witness :
    parseLine "5\t2\ta\tb" = some ⟨5, 2, "a", "b"⟩
    ∧ parseLine "3\t1\tc\td" = some ⟨3, 1, "c", "d"⟩
    ∧ Event.sequence ⟨3, 1, "c", "d"⟩ ≤ Event.sequence ⟨5, 2, "a", "b"⟩
    ∧ (((readEvents 0 ["5\t2\ta\tb", "3\t1\tc\td", "9\t2\tz\tw"]).error =
          some outOfSequenceMsg
        ∧ (readEvents 0 ["5\t2\ta\tb", "3\t1\tc\td", "9\t2\tz\tw"]).events =
            (if 0 < Event.sequence ⟨5, 2, "a", "b"⟩ then [⟨5, 2, "a", "b"⟩] else []))
       ∧ ∀ (s : Nat) (lines : List String),
           List.Chain' (fun a b => a < b)
             (s :: ((readEvents s lines).events.map Event.sequence))) :=
  ⟨rfl, rfl, by decide,
   c2_nonincreasing_second_line_halts 0 "5\t2\ta\tb" "3\t1\tc\td" ["9\t2\tz\tw"]
     ⟨5, 2, "a", "b"⟩ ⟨3, 1, "c", "d"⟩ rfl rfl (by decide)⟩

/-- C4 counterexample: the uint64 l.lastSequence wraps.  The one-line log
with the maximal sequence 2^64 - 1 replays cleanly, but the writer then
assigns the first live-submitted event (2^64 - 1 + 1) mod 2^64 = 0 and
appends the line 0 tab 2 tab c tab d, which is not strictly greater than
the replayed sequence, and the log's sequence column is no longer
strictly increasing. -/
theorem c4_wraparound_counterexample :
    readEvents 0 ["18446744073709551615\t2\ta\tb"] =
      ⟨[⟨18446744073709551615, 2, "a", "b"⟩], none, 18446744073709551615⟩
    ∧ (runWriter 18446744073709551615 [WritePut "c" "d"]).2 = ["0\t2\tc\td"]
    ∧ ¬ (18446744073709551615 : Nat) < 0
    ∧ ¬ List.Chain' (fun a b => a < b)
        ([(⟨18446744073709551615, 2, "a", "b"⟩ : Event)].map Event.sequence
          ++ seqRange 18446744073709551615 1) := by
  refine ⟨by decide, by decide, by omega, ?_⟩
  intro hc
  have hl : ([(⟨18446744073709551615, 2, "a", "b"⟩ : Event)].map Event.sequence
      ++ seqRange 18446744073709551615 1) = [18446744073709551615, 0] := by decide
  rw [hl] at hc
  have hlt := (List.chain'_cons.mp hc).1
  omega

/-- C4 amended: the writer assigns (lastSequence + 1) mod 2^64 to each
drained event in submission order.  After an error-free replay with final
lastSequence S, and provided no wraparound occurs across the newly
submitted batch (S + news.length < 2^64), every replayed sequence is at
most S, the new events are written with the consecutive sequences after S
in submission order, the first live event receives exactly S + 1 — hence
strictly above every replayed sequence — and the full log's sequence
column stays strictly increasing. -/
theorem c4_sequences_continue_strictly (s0 S : Nat) (lines : List String)
    (evs news : List Event)
    (h : readEvents s0 lines = ⟨evs, none, S⟩)
    (hnw : S + news.length < 2 ^ 64) :
    (∀ e ∈ evs, e.sequence ≤ S)
    ∧ (runWriter S news).2 =
        List.zipWith formatEvent (seqRange S news.length) news
    ∧ (0 < news.length → (seqRange S news.length).head? = some (S + 1))
    ∧ List.Chain' (fun a b => a < b)
        (evs.map Event.sequence ++ seqRange S news.length) := by
  have hok := readEvents_ok lines s0 S evs h
  refine ⟨hok.2, ?_, ?_, ?_⟩
  · rw [runWriter_eq]
  · intro hpos
    cases hn : news.length with
    | zero => exact absurd hpos (by omega)
    | succ n =>
      rw [hn] at hnw
      rw [seqRange, Nat.mod_eq_of_lt (by omega)]
      rfl
  · rw [List.chain'_append]
    refine ⟨?_, (seqRange_chain news.length S hnw).tail, ?_⟩
    · have hc := readEvents_chain lines s0
      rw [h] at hc
      exact hc.tail
    · intro x hx y hy
      have hxl : x ∈ evs.map Event.sequence := by
        obtain ⟨hne, hxe⟩ := List.mem_getLast?_eq_getLast hx
        rw [hxe]
        exact List.getLast_mem hne
      obtain ⟨e, he, hxe⟩ := List.mem_map.mp hxl
      have hxS : x ≤ S := hxe ▸ hok.2 e he
      cases hn : news.length with
      | zero =>
        rw [hn] at hy
        simp [seqRange] at hy
      | succ n =>
        rw [hn] at hnw
        rw [hn] at hy
        rw [seqRange, Nat.mod_eq_of_lt (by omega)] at hy
        simp only [List.head?_cons, Option.mem_def, Option.some.injEq] at hy
        omega

/-- C4 witness: one replayed event with sequence 1, then one new Put,
which is written with sequence 2, far from the wraparound bound. -/
theorem c4_sequences_continue_strictly_witness :
    readEvents 0 ["1\t2\ta\tb"] = ⟨[⟨1, 2, "a", "b"⟩], none, 1⟩
    ∧ 1 + [WritePut "c" "d"].length < 2 ^ 64
    ∧ ((∀ e ∈ [(⟨1, 2, "a", "b"⟩ : Event)], e.sequence ≤ 1)
       ∧ (runWriter 1 [WritePut "c" "d"]).2 =
           List.zipWith formatEvent (seqRange 1 [WritePut "c" "d"].length)
             [WritePut "c" "d"]
       ∧ (0 < [WritePut "c" "d"].length →
           (seqRange 1 [WritePut "c" "d"].length).head? = some (1 + 1))
       ∧ List.Chain' (fun a b => a < b)
           ([(⟨1, 2, "a", "b"⟩ : Event)].map Event.sequence
             ++ seqRange 1 [WritePut "c" "d"].length)) :=
  ⟨rfl, by decide,
   c4_sequences_continue_strictly 0 1 ["1\t2\ta\tb"] [⟨1, 2, "a", "b"⟩]
     [WritePut "c" "d"] rfl (by decide)⟩

/-- C6: when the i-th durable write fails, the drain goroutine sends that
failure on the errors channel observable through Err, the events before
index i are the only lines ever written (the failed write is not retried
and no later submitted event is written), and the goroutine stops. -/
theorem c6_write_failure_stops_writer (w : Nat → Option String) (s0 i : Nat)
    (msg : String) (es : List Event)
    (hok : ∀ j, j < i → w j = none) (hfail : w i = some msg)
    (hlen : i < es.length) :
    Err (runDrain w 0 s0 es) = some msg
    ∧ (runDrain w 0 s0 es).lines = (runWriter s0 (es.take i)).2
    ∧ (runDrain w 0 s0 es).lines.length = i := by
  have hok0 : ∀ j, j < i → w (0 + j) = none := by
    intro j hj
    rw [Nat.zero_add]
    exact hok j hj
  have hfail0 : w (0 + i) = some msg := by
    rw [Nat.zero_add]
    exact hfail
  have hd := runDrain_fail es w 0 i s0 msg hok0 hfail0 hlen
  refine ⟨hd.1, hd.2, ?_⟩
  rw [hd.2, runWriter_eq]
  simp only [List.length_zipWith, seqRange_length, List.length_take]
  omega

/-- C6 witness: with the second Fprintf failing, only the first of three
submitted events reaches the log and the error is observable via Err. -/
theorem c6_write_failure_stops_writer_witness :
    (∀ j, j < 1 →
      (fun j => if j = 1 then some "disk full" else none : Nat → Option String) j = none)
    ∧ (fun j => if j = 1 then some "disk full" else none : Nat → Option String) 1 =
        some "disk full"
    ∧ 1 < [WritePut "a" "1", WritePut "b" "2", WriteDelete "a"].length
    ∧ (Err (runDrain (fun j => if j = 1 then some "disk full" else none) 0 0
          [WritePut "a" "1", WritePut "b" "2", WriteDelete "a"]) = some "disk full"
       ∧ (runDrain (fun j => if j = 1 then some "disk full" else none) 0 0
            [WritePut "a" "1", WritePut "b" "2", WriteDelete "a"]).lines =
           (runWriter 0 ([WritePut "a" "1", WritePut "b" "2", WriteDelete "a"].take 1)).2
       ∧ (runDrain (fun j => if j = 1 then some "disk full" else none) 0 0
            [WritePut "a" "1", WritePut "b" "2", WriteDelete "a"]).lines.length = 1) :=
  ⟨by decide, rfl, by decide,
   c6_write_failure_stops_writer (fun j => if j = 1 then some "disk full" else none)
     0 1 "disk full" [WritePut "a" "1", WritePut "b" "2", WriteDelete "a"]
     (by decide) rfl (by decide)⟩

/-- C9: the events channel has the fixed capacity 16; a send on a full
buffer is disabled (the caller blocks; nothing is dropped or reordered);
sends within capacity enqueue in submission order; and draining whatever
submitAll buffered writes the events to the log in the original
submission order with consecutive sequence numbers. -/
theorem c9_bounded_queue_backpressure :
    eventChannelCapacity = 16
    ∧ (∀ (q : EventQueue) (e : Event),
        q.buffered.length = eventChannelCapacity → submit q e = none)
    ∧ (∀ (q : EventQueue) (es : List Event),
        q.buffered.length + es.length ≤ eventChannelCapacity →
        submitAll q es = some ⟨q.buffered ++ es⟩)
    ∧ (∀ (s0 : Nat) (es : List Event) (q : EventQueue),
        submitAll ⟨[]⟩ es = some q →
        (runWriter s0 q.buffered).2 =
          List.zipWith formatEvent (seqRange s0 es.length) es) := by
  refine ⟨rfl, ?_, fun q es h => submitAll_ok es q h, ?_⟩
  · intro q e hfull
    rw [submit, if_neg (by omega)]
  · intro s0 es q h
    have hq := submitAll_some es ⟨[]⟩ q h
    subst hq
    show (runWriter s0 ([] ++ es)).2 = _
    rw [List.nil_append, runWriter_eq]

/-- C9 witness: a buffer of 16 in-flight events refuses a 17th send; two
events submitted to an empty buffer are drained to the log in order. -/
theorem c9_bounded_queue_backpressure_witness :
    (List.replicate 16 (WritePut "k" "v")).length = eventChannelCapacity
    ∧ submit ⟨List.replicate 16 (WritePut "k" "v")⟩ (WriteDelete "k") = none
    ∧ submitAll ⟨[]⟩ [WritePut "a" "1", WriteDelete "a"] =
        some ⟨[WritePut "a" "1", WriteDelete "a"]⟩
    ∧ (runWriter 0 [WritePut "a" "1", WriteDelete "a"]).2 =
        List.zipWith formatEvent (seqRange 0 2) [WritePut "a" "1", WriteDelete "a"] :=
  ⟨by decide,
   c9_bounded_queue_backpressure.2.1 ⟨List.replicate 16 (WritePut "k" "v")⟩
     (WriteDelete "k") (by decide),
   c9_bounded_queue_backpressure.2.2.1 ⟨[]⟩ [WritePut "a" "1", WriteDelete "a"]
     (by decide),
   c9_bounded_queue_backpressure.2.2.2 0 [WritePut "a" "1", WriteDelete "a"]
     ⟨[WritePut "a" "1", WriteDelete "a"]⟩ (by decide)⟩

/-- C10: a fresh logger replays from lastSequence 0, so a first line that
parses with sequence 0 fails the check lastSequence >= sequence: replay
delivers no event and exactly the out-of-sequence error; conversely any
log a fresh logger replays without error starts with sequence at least 1. -/
theorem c10_first_sequence_must_be_positive (l : String) (rest : List String)
    (e : Event) (hp : parseLine l = some e) :
    (e.sequence = 0 →
      readEvents NewFileTransactionLogger.lastSequence (l :: rest) =
        ⟨[], some outOfSequenceMsg, 0⟩)
    ∧ (∀ (evs : List Event) (S : Nat),
        readEvents NewFileTransactionLogger.lastSequence (l :: rest) =
          ⟨evs, none, S⟩ → 1 ≤ e.sequence) := by
  constructor
  · intro h0
    have hge : 0 ≥ e.sequence := Nat.le_of_eq h0
    simp only [readEvents, hp, NewFileTransactionLogger]
    rw [if_pos hge]
  · intro evs S h
    by_cases h1 : 1 ≤ e.sequence
    · exact h1
    · exfalso
      have h0 : e.sequence = 0 := by omega
      have hge : NewFileTransactionLogger.lastSequence ≥ e.sequence := by
        rw [h0]
        exact Nat.zero_le _
      simp only [readEvents, hp, if_pos hge] at h
      exact absurd h (by simp)

/-- C10 witness: the one-line log with sequence 0 is rejected by a fresh
logger with no events and the out-of-sequence error. -/
theorem c10_first_sequence_must_be_positive_witness :
    parseLine "0\t2\ta\tb" = some ⟨0, 2, "a", "b"⟩
    ∧ readEvents NewFileTransactionLogger.lastSequence ["0\t2\ta\tb"] =
        ⟨[], some outOfSequenceMsg, 0⟩ :=
  ⟨rfl,
   (c10_first_sequence_must_be_positive "0\t2\ta\tb" [] ⟨0, 2, "a", "b"⟩ rfl).1 rfl⟩

end GoStorage
